import Mathlib

/-!
# Shell command engine (`src/main.c`): tokenizer, pipeline splitter, redirection scan,
search-path lookup and `echo`

A C string is represented by the list of its characters before the terminating NUL, so
`*rest == '\0'` reads `rest = []` and `rest++` is the tail.  A `char*` that may be `NULL`
is an `Option`, and an array of them a list whose length is the number of slots written.
Reads and writes that C leaves undefined are results `Except.error`.  Loops that are not
structural take a bound on their iterations; the bounds used are shown never to be reached.

The file system, the state of the standard output and the fate of the forked children are
not run: `Env` holds what the shell reads of them, and `Step` and `Child` record what the
shell and its children are asked to do.
-/

namespace Shell

/-- Characters of a C string, terminator excluded. -/
abbrev Str := List Char

/-- Ways in which the C code leaves defined behaviour (or the model its fuel). -/
inductive Fault where
  /-- the iteration bound of the model was reached (the bounds given are never reached, see
  `tokenize_input_fuel`, `pipe_segments_fuel`, `redirect_scan_fuel`, `echo_handler_fuel`,
  `type_handler_fuel`) -/
  | outOfFuel
  /-- write past the 1000 bytes of one row of `token_bufs` -/
  | tokenBufOverflow
  /-- more tokens than `token_bufs` has rows or than `args` has slots -/
  | tooManyTokens
  /-- more segments than the `MAX_NUM_TOKENS` slots allocated for `pipes` -/
  | tooManySegments
  /-- a `NULL` pointer handed to `strcmp` -/
  | nullDeref
  /-- read of an `args` slot that was never written -/
  | uninitRead
  deriving DecidableEq, Repr

deriving instance DecidableEq for Except

/-- The constant of `#define MAX_NUM_TOKENS 100`. -/
def MAX_NUM_TOKENS : Nat := 100

/-- Lines 135-143: the inside of a single-quoted span.  `buf` is `buf[0..j)`; the result is
the buffer and the cursor, which stands on the closing quote or at the end of the input. -/
def single_quote_span (buf : Str) : Str → Str × Str
  | [] => (buf, [])
  | c :: rest =>
    if c = '\'' then (buf, c :: rest)
    else if buf.length < 999 then single_quote_span (buf ++ [c]) rest
    else single_quote_span buf rest

/-- Lines 154-164: the inside of a double-quoted span.  A backslash followed by a backslash,
`$`, newline (10) or `"` is skipped and the following character copied. -/
def double_quote_span (buf : Str) : Str → Str × Str
  | [] => (buf, [])
  | [c] =>
    if c = '"' then (buf, [c])
    else if buf.length < 999 then (buf ++ [c], [])
    else (buf, [])
  | c :: d :: rest =>
    if c = '"' then (buf, c :: d :: rest)
    else if buf.length < 999 then
      if c = '\\' ∧ (d = '\\' ∨ d = '$' ∨ d = '\n' ∨ d = '"') then
        double_quote_span (buf ++ [d]) rest
      else double_quote_span (buf ++ [c]) (d :: rest)
    else double_quote_span buf (d :: rest)

/-- Lines 119-176: the loop that builds one token.  Returns the token buffer `buf[0..j)` and
the cursor where the loop was left (`break` or end of input). -/
def token_loop : Nat → Str → Str → Except Fault (Str × Str)
  | 0, _, _ => .error .outOfFuel
  | _ + 1, buf, [] => .ok (buf, [])
  | fuel + 1, buf, c :: rest =>
    if c = ' ' then .ok (buf, c :: rest)
    else if c = '\\' then
      match rest with
      | [] => token_loop fuel buf []
      | d :: rest' =>
        -- `buf[j] = *rest` is not guarded by `j < 999`
        if buf.length < 1000 then token_loop fuel (buf ++ [d]) rest'
        else .error .tokenBufOverflow
    else if c = '\'' then
      match single_quote_span buf rest with
      | (buf', []) => token_loop fuel buf' []
      | (buf', [q]) =>
        if q = '\'' then .ok (buf', []) else token_loop fuel buf' [q]
      | (buf', q :: q' :: rest') =>
        if q = '\'' then
          if q' = '\'' then token_loop fuel buf' rest'
          else .ok (buf', q' :: rest')
        else token_loop fuel buf' (q :: q' :: rest')
    else if c = '"' then
      match double_quote_span buf rest with
      | (buf', []) => token_loop fuel buf' []
      | (buf', q :: rest') =>
        if q = '"' then token_loop fuel buf' rest' else token_loop fuel buf' (q :: rest')
    else
      token_loop fuel (if buf.length < 999 then buf ++ [c] else buf) rest

/-- Lines 111-182: the loop over tokens.  `args` holds `args[0..argc)`. -/
def tokens_loop : Nat → List Str → Str → Except Fault (List Str)
  | 0, _, _ => .error .outOfFuel
  | fuel + 1, args, rest =>
    match rest.dropWhile (· = ' ') with
    | [] => .ok args
    | rest1 =>
      -- `token_bufs[token_i]` with `token_i = argc`
      if args.length < MAX_NUM_TOKENS then
        match token_loop (rest1.length + 1) [] rest1 with
        | .error e => .error e
        | .ok (buf, rest2) =>
          -- `buf[j] = '\0'`
          if buf.length < 1000 then tokens_loop fuel (args ++ [buf]) rest2
          else .error .tokenBufOverflow
      else .error .tooManyTokens

/-- Function `tokenize_input` (lines 101-186) on a non-`NULL` line: the tokens `args[0..argc)`; the
slot `args[argc]` is then set to `NULL`, which needs `argc < MAX_NUM_TOKENS`. -/
def tokenize_input (rest : Str) : Except Fault (List Str) :=
  match tokens_loop (rest.length + 1) [] rest with
  | .error e => .error e
  | .ok args => if args.length < MAX_NUM_TOKENS then .ok args else .error .tooManyTokens

/-- The maximal runs of non-space characters of a string, in left-to-right order (the
specification of the tokens of a line without quotes and backslashes). -/
def words (s : Str) : List Str :=
  (s.splitOn ' ').filter (· ≠ [])

/-- The string with a backslash put before every backslash and every double quote (the
escaping function of the specification of double-quoted spans). -/
def escape_dq : Str → Str
  | [] => []
  | c :: s =>
    if c = '\\' ∨ c = '"' then '\\' :: c :: escape_dq s
    else c :: escape_dq s

/-- A predicate for the characters that the token loop copies as they are. -/
def plain (c : Char) : Prop :=
  c ≠ ' ' ∧ c ≠ '\\' ∧ c ≠ '\'' ∧ c ≠ '"'

instance : DecidablePred plain := fun c => by
  unfold plain
  infer_instance

/-! ### Pipeline splitter (lines 415-430) -/

/-- Call `strsep(&rest, "|")`: the segment before the first `|` and the new value of `rest`, the
text after that `|`, or `NULL` when the segment ran to the end of the string. -/
def strsep : Str → Str × Option Str
  | [] => ([], none)
  | c :: cs =>
    if c = '|' then ([], some cs)
    else ((strsep cs).1.cons c, (strsep cs).2)

/-- Lines 422-426: `end` starts on the last character and moves left while `end > segment`
and `*end` is a space or a newline, writing the terminator over it.  `fuel` bounds the
iterations; the length of the segment is enough. -/
def trim_end : Nat → Str → Str
  | 0, segment => segment
  | fuel + 1, segment =>
    if 0 < segment.length - 1 ∧
        (segment.getLast? = some ' ' ∨ segment.getLast? = some '\n') then
      trim_end fuel segment.dropLast
    else segment

/-- Lines 420-426: one segment with its leading spaces skipped and its end trimmed. -/
def trim_segment (segment : Str) : Str :=
  trim_end (segment.dropWhile (· = ' ')).length (segment.dropWhile (· = ' '))

/-- Lines 418-430: `pipes[0..pipe_count)`. -/
def split_pipes : Nat → Str → List Str → Except Fault (List Str)
  | 0, _, _ => .error .outOfFuel
  | fuel + 1, rest, pipes =>
    -- `pipes[pipe_count]` in the block of `calloc(MAX_NUM_TOKENS, sizeof(char*))`
    if pipes.length < MAX_NUM_TOKENS then
      match strsep rest with
      | (segment, none) => .ok (pipes ++ [trim_segment segment])
      | (segment, some rest') => split_pipes fuel rest' (pipes ++ [trim_segment segment])
    else .error .tooManySegments

/-- The pipeline splitter of `main` (lines 415-430) applied to the contents of `input`. -/
def pipe_segments (input : Str) : Except Fault (List Str) :=
  split_pipes (input.length + 1) input []

/-! ### Redirection scan (lines 441-470) and its use in the child (lines 570-591) -/

/-- The array `args` after `tokenize_input`: slots `0..argc`, the last one `NULL`. -/
def args_array (tokens : List Str) : List (Option Str) :=
  tokens.map some ++ [none]

/-- The argument vector an array denotes: the entries before the first `NULL`. -/
def argv_of : List (Option Str) → List Str
  | [] => []
  | none :: _ => []
  | some t :: rest => t :: argv_of rest

/-- The condition of line 450-453. -/
def is_redirect (t : Str) : Bool :=
  t = ">".toList || t = "1>".toList || t = "2>".toList ||
  t = ">>".toList || t = "1>>".toList || t = "2>>".toList

/-- Lines 455-463. -/
def redirect_type_of (t : Str) : Int :=
  if t = ">".toList ∨ t = "1>".toList then 1
  else if t = "2>".toList then 2
  else if t = ">>".toList ∨ t = "1>>".toList then 3
  else 4

/-- State after the scan: the array, `redirect_type` and `output_file`. -/
structure RedirScan where
  args : List (Option Str)
  redirect_type : Int
  output_file : Option Str
  deriving DecidableEq, Repr

/-- Lines 449-470 from index `i`.  Reading a slot beyond those written is a fault. -/
def redirect_scan_from (args : List (Option Str)) : Nat → Nat → Except Fault RedirScan
  | 0, _ => .error .outOfFuel
  | fuel + 1, i =>
    match args.get? i with
    | none => .error .uninitRead
    | some none => .ok ⟨args, -1, none⟩
    | some (some t) =>
      if is_redirect t then
        match args.get? (i + 1) with
        | none => .error .uninitRead
        | some file => .ok ⟨args.set i none, redirect_type_of t, file⟩
      else redirect_scan_from args fuel (i + 1)

/-- Lines 441-470. -/
def redirect_scan (args : List (Option Str)) : Except Fault RedirScan :=
  redirect_scan_from args (args.length + 1) 0

/-- The stream a redirection rebinds. -/
inductive Stream where
  | stdout
  | stderr
  deriving DecidableEq, Repr

/-- The way the target file is opened. -/
inductive Mode where
  | truncate
  | append
  deriving DecidableEq, Repr

/-- What the child does to its streams before it runs the command. -/
inductive ChildSetup where
  /-- nothing is opened, `output_file` being `NULL` -/
  | inherit
  /-- the file is opened in the mode and `dup2`-ed onto the stream -/
  | redirect (stream : Stream) (mode : Mode) (path : Str)
  /-- no file was opened (`fd < 0`): "error opening file", `exit(1)` -/
  | open_error
  deriving DecidableEq, Repr

/-- Lines 570-591, for an `open` that succeeds. -/
def child_setup (r : RedirScan) : ChildSetup :=
  match r.output_file with
  | none => .inherit
  | some path =>
    if r.redirect_type = 1 ∨ r.redirect_type = 2 then
      .redirect (if r.redirect_type = 1 then .stdout else .stderr) .truncate path
    else if r.redirect_type = 3 ∨ r.redirect_type = 4 then
      .redirect (if r.redirect_type = 3 then .stdout else .stderr) .append path
    else .open_error

/-! ### Search path and builtins -/

/-- Test `strcmp(a, b) == 0` where `a` may be `NULL`. -/
def strcmp_eq (a : Option Str) (b : Str) : Except Fault Bool :=
  match a with
  | none => .error .nullDeref
  | some a => .ok (a = b)

/-- Lines 208-212: the `readdir` loop over the entries of one directory. -/
def readdir_loop (token : Option Str) : List Str → Except Fault Bool
  | [] => .ok false
  | d_name :: entries =>
    match strcmp_eq token d_name with
    | .error e => .error e
    | .ok true => .ok true
    | .ok false => readdir_loop token entries

/-- Function `find_in_path` (lines 201-216).  `listing dir` is what `opendir`/`readdir` give for
`dir`: `none` when it cannot be opened, else the names of its entries in order. -/
def find_in_path (listing : Str → Option (List Str)) (token : Option Str) :
    List Str → Except Fault Str
  | [] => .ok []
  | dir :: paths =>
    match listing dir with
    | none => find_in_path listing token paths
    | some entries =>
      match readdir_loop token entries with
      | .error e => .error e
      | .ok true => .ok dir
      | .ok false => find_in_path listing token paths

/-- The table `builtins` of line 26. -/
def builtins : List Str :=
  ["type".toList, "echo".toList, "exit".toList, "pwd".toList, "cd".toList, "history".toList]

/-- Function `check_builtin` (lines 191-199): `0` when the token is a builtin, `1` otherwise. -/
def check_builtin (token : Option Str) : Except Fault Nat :=
  match token with
  | none => .error .nullDeref
  | some t => .ok (if t ∈ builtins then 0 else 1)

/-- Lines 237-243 of `echo_handler`, from index `i`, appending to `out`. -/
def echo_loop (args : List (Option Str)) (argc : Nat) : Nat → Nat → Str → Except Fault Str
  | 0, _, _ => .error .outOfFuel
  | fuel + 1, i, out =>
    if i < argc then
      match args.get? i with
      | none => .error .uninitRead
      | some none => .ok out
      | some (some a) =>
        echo_loop args argc fuel (i + 1) (out ++ a ++ (if i + 1 < argc then [' '] else []))
    else .ok out

/-- Function `echo_handler` (lines 236-248): the text written to standard output; `is_pipe` is the
value of `is_pipe(STDOUT_FILENO)`. -/
def echo_handler (args : List (Option Str)) (argc : Nat) (is_pipe : Bool) :
    Except Fault Str :=
  match echo_loop args argc (argc + 1) 1 [] with
  | .error e => .error e
  | .ok out => .ok (if is_pipe then out else out ++ ['\n'])

/-- Lines 252-264 of `type_handler`, from index `i`. -/
def type_loop (listing : Str → Option (List Str)) (paths : List Str)
    (args : List (Option Str)) (argc : Nat) : Nat → Nat → Str → Except Fault Str
  | 0, _, _ => .error .outOfFuel
  | fuel + 1, i, out =>
    if i < argc then
      match args.get? i with
      | none => .error .uninitRead
      | some next_token =>
        match check_builtin next_token with
        | .error e => .error e
        | .ok 0 =>
          type_loop listing paths args argc fuel (i + 1)
            (out ++ next_token.getD [] ++ " is a shell builtin\n".toList)
        | .ok _ =>
          match find_in_path listing next_token paths with
          | .error e => .error e
          | .ok search_path =>
            if search_path ≠ [] then
              type_loop listing paths args argc fuel (i + 1)
                (out ++ next_token.getD [] ++ " is ".toList ++ search_path ++ ['/'] ++
                  next_token.getD [] ++ ['\n'])
            else
              type_loop listing paths args argc fuel (i + 1)
                (out ++ next_token.getD [] ++ ": not found\n".toList)
    else .ok out

/-- Function `type_handler` (lines 250-265): the text written to standard output. -/
def type_handler (listing : Str → Option (List Str)) (paths : List Str)
    (args : List (Option Str)) (argc : Nat) : Except Fault Str :=
  type_loop listing paths args argc (argc + 1) 1 []

/-! ### One iteration of the loop of `main` (lines 393-623) -/

/-- What the shell process sees of its surroundings. -/
structure Env where
  /-- the directories of `PATH`, in order (`paths[0..path_count)`) -/
  paths : List Str
  /-- what `opendir`/`readdir` give: `none` for a directory that cannot be opened -/
  listing : Str → Option (List Str)
  /-- the standard output of the shell itself is a FIFO -/
  stdout_fifo : Bool
  /-- the file of that name, once opened for writing, is a FIFO -/
  file_fifo : Str → Bool

/-- What a forked child does after its streams are set up. -/
inductive Child where
  /-- the text `echo_handler` wrote to standard output -/
  | echo (out : Str)
  /-- the text `type_handler` wrote to standard output -/
  | type (out : Str)
  | pwd
  | history
  /-- the call `execve(path, argv, envp)` -/
  | exec (path : Str) (argv : List Str)
  /-- the "command not found" message -/
  | not_found (msg : Str)
  /-- the message "error opening file", then `exit(1)` -/
  | open_error
  deriving DecidableEq, Repr

/-- What one input line makes the shell do. -/
inductive Step where
  /-- the loop is left -/
  | exit
  /-- the call of `cd_handler` in the shell process: `chdir` to `HOME` or to the path -/
  | cd (home : Bool) (path : Str)
  /-- the call of `history_handler` in the shell process -/
  | history (argc : Nat) (args : List (Option Str))
  /-- one child per segment; a fault ends that child only -/
  | pipeline (children : List (Except Fault Child))
  /-- one child -/
  | single (setup : ChildSetup) (child : Except Fault Child)
  deriving DecidableEq, Repr

/-- Read of `args[i]`. -/
def slot (args : List (Option Str)) (i : Nat) : Except Fault (Option Str) :=
  match args.get? i with
  | none => .error .uninitRead
  | some a => .ok a

/-- Lines 606-614 and 537-547: run the external command found in `search_path`, or say that
there is none. -/
def exec_or_not_found (args : List (Option Str)) (search_path : Str) :
    Except Fault Child := do
  let arg0 ← slot args 0
  if search_path ≠ [] then
    -- `strlen(args[0])`, `sprintf("%s/%s", ...)`
    match arg0 with
    | none => .error .nullDeref
    | some a => .ok (.exec (search_path ++ ['/'] ++ a) (argv_of args))
  else
    match arg0 with
    | none => .error .nullDeref
    | some a => .ok (.not_found (a ++ ": command not found\n".toList))

/-- Lines 593-616: the command of the single child, after the redirection. -/
def single_child (env : Env) (args : List (Option Str)) (argc : Nat) (search_path : Str)
    (is_pipe : Bool) : Except Fault Child := do
  let arg0 ← slot args 0
  if ← strcmp_eq arg0 "echo".toList then
    let out ← echo_handler args argc is_pipe
    return .echo out
  else if ← strcmp_eq arg0 "type".toList then
    let out ← type_handler env.listing env.paths args argc
    return .type out
  else if ← strcmp_eq arg0 "pwd".toList then return .pwd
  else if ← strcmp_eq arg0 "history".toList then return .history
  else exec_or_not_found args search_path

/-- Lines 522-548: the command of the child of one pipeline segment.  `argc` is the token
count of the whole line, as passed by `main`. -/
def segment_child (env : Env) (segment : Str) (argc : Nat) (is_pipe : Bool) :
    Except Fault Child := do
  let segment_args := args_array (← tokenize_input segment)
  let arg0 ← slot segment_args 0
  if ← strcmp_eq arg0 "echo".toList then
    let out ← echo_handler segment_args argc is_pipe
    return .echo out
  else if ← strcmp_eq arg0 "pwd".toList then return .pwd
  else if ← strcmp_eq arg0 "type".toList then
    let out ← type_handler env.listing env.paths segment_args argc
    return .type out
  else
    let spath ← find_in_path env.listing arg0 env.paths
    exec_or_not_found segment_args spath

/-- Lines 497-550: the children of a pipeline, segment `i` being `pipes[i]`.  Every child
but the last has the write end of a pipe as its standard output. -/
def pipeline_children (env : Env) (argc : Nat) : List Str → List (Except Fault Child)
  | [] => []
  | [segment] => [segment_child env segment argc env.stdout_fifo]
  | segment :: pipes => segment_child env segment argc true :: pipeline_children env argc pipes

/-- Value of `is_pipe(STDOUT_FILENO)` in the single child after `setup`. -/
def stdout_is_pipe (env : Env) : ChildSetup → Bool
  | .redirect .stdout _ path => env.file_fifo path
  | _ => env.stdout_fifo

/-- Lines 396-623: one line read by `readline`. -/
def main_step (env : Env) (line : Str) : Except Fault Step := do
  -- `strncpy(input, line, MAX_NUM_TOKENS - 1)`
  let input := line.take (MAX_NUM_TOKENS - 1)
  let tokens ← tokenize_input input
  let argc := tokens.length
  let args := args_array tokens
  let search_path ← find_in_path env.listing (← slot args 0) env.paths
  let pipes ← pipe_segments input
  if ← strcmp_eq (← slot args 0) "exit".toList then return .exit
  else
    let r ← redirect_scan args
    let args := r.args
    if ← strcmp_eq (← slot args 0) "cd".toList then
      -- `cd_handler`
      if ← strcmp_eq (← slot args 1) "~".toList then return .cd true []
      else return .cd false ((← slot args 1).getD [])
    else if ← strcmp_eq (← slot args 0) "history".toList then return .history argc args
    else if 1 < pipes.length then return .pipeline (pipeline_children env argc pipes)
    else
      let setup := child_setup r
      if setup = .open_error then return .single setup (.ok .open_error)
      else
        return .single setup
          (single_child env args argc search_path (stdout_is_pipe env setup))

/-- An environment with one directory `/bin` that holds `ls` and `cat`. -/
def env0 : Env where
  paths := ["/bin".toList]
  listing := fun dir =>
    if dir = "/bin".toList then some [".".toList, "..".toList, "ls".toList, "cat".toList]
    else none
  stdout_fifo := false
  file_fifo := fun _ => false

/-! ## Theorems -/

/-! ### Tokenizer: lines without quotes and backslashes -/

/-- The four tokenizer examples of the specification. -/
theorem tokenize_input_examples :
    tokenize_input "echo  a   b".toList = .ok ["echo".toList, "a".toList, "b".toList] ∧
    tokenize_input "echo 'a b' c".toList = .ok ["echo".toList, "a b".toList, "c".toList] ∧
    tokenize_input "echo \"a\\\"b\"".toList = .ok ["echo".toList, "a\"b".toList] ∧
    tokenize_input "echo a'b''c'd".toList = .ok ["echo".toList, "abcd".toList] := by
  decide

theorem words_nil : words [] = [] := by
  simp [words]

theorem words_space (s : Str) : words (' ' :: s) = words s := by
  simp [words, List.splitOn]

theorem words_dropWhile (s : Str) : words (s.dropWhile (· = ' ')) = words s := by
  induction s with
  | nil => rfl
  | cons c s ih =>
    by_cases h : c = ' '
    · subst h
      simp only [List.dropWhile_cons, decide_True, if_true, words_space]
      exact ih
    · simp [List.dropWhile_cons, h]

theorem words_run_nil (w : Str) (hw : ∀ c ∈ w, c ≠ ' ') (hne : w ≠ []) :
    words w = [w] := by
  have h : w.splitOnP (· == ' ') = [w] := by
    apply List.splitOnP_eq_single
    intro x hx
    simpa using hw x hx
  simp [words, List.splitOn, h, hne]

theorem words_run_space (w t : Str) (hw : ∀ c ∈ w, c ≠ ' ') (hne : w ≠ []) :
    words (w ++ ' ' :: t) = w :: words t := by
  have h : (w ++ ' ' :: t).splitOnP (· == ' ') = w :: t.splitOnP (· == ' ') := by
    apply List.splitOnP_first
    · intro x hx
      simpa using hw x hx
    · simp
  simp [words, List.splitOn, h, hne]

theorem token_loop_plain_step (w : Str) (hw : ∀ c ∈ w, plain c) :
    ∀ (fuel : Nat) (buf tail : Str), buf.length + w.length ≤ 999 →
      token_loop (fuel + w.length) buf (w ++ tail) = token_loop fuel (buf ++ w) tail := by
  induction w with
  | nil => intro fuel buf tail _; simp
  | cons c w ih =>
    intro fuel buf tail hlen
    obtain ⟨h1, h2, h3, h4⟩ := hw c (List.mem_cons_self _ _)
    simp only [List.length_cons] at hlen
    have hb : buf.length < 999 := by omega
    have h := ih (fun x hx => hw x (List.mem_cons_of_mem _ hx)) fuel (buf ++ [c]) tail
      (by simp; omega)
    have e : fuel + (c :: w).length = (fuel + w.length) + 1 := by simp; omega
    rw [e]
    simp only [List.cons_append, token_loop, h1, h2, h3, h4, if_false, hb, if_true]
    simpa using h

theorem token_loop_plain (w : Str) (hw : ∀ c ∈ w, plain c) :
    ∀ (fuel : Nat) (buf tail : Str), w.length < fuel → buf.length + w.length ≤ 999 →
      (tail = [] ∨ ∃ t, tail = ' ' :: t) →
      token_loop fuel buf (w ++ tail) = .ok (buf ++ w, tail) := by
  induction w with
  | nil =>
    intro fuel buf tail hf _ ht
    obtain ⟨f, rfl⟩ : ∃ f, fuel = f + 1 := ⟨fuel - 1, by simp at hf; omega⟩
    rcases ht with rfl | ⟨t, rfl⟩
    · simp [token_loop]
    · simp [token_loop]
  | cons c w ih =>
    intro fuel buf tail hf hlen ht
    obtain ⟨f, rfl⟩ : ∃ f, fuel = f + 1 := ⟨fuel - 1, by simp at hf; omega⟩
    obtain ⟨h1, h2, h3, h4⟩ := hw c (List.mem_cons_self _ _)
    simp only [List.length_cons] at hf hlen
    have hb : buf.length < 999 := by omega
    simp only [List.cons_append, token_loop, h1, h2, h3, h4, if_false, hb, if_true]
    have h := ih (fun x hx => hw x (List.mem_cons_of_mem _ hx)) f (buf ++ [c]) tail (by omega)
      (by simp; omega) ht
    simpa using h

theorem split_run (c : Char) (r : Str) (hc : c ≠ ' ') :
    ∃ w tail, c :: r = w ++ tail ∧ w ≠ [] ∧ (∀ x ∈ w, x ≠ ' ') ∧
      (tail = [] ∨ ∃ t, tail = ' ' :: t) := by
  induction r generalizing c with
  | nil => exact ⟨[c], [], rfl, by simp, by simpa using hc, Or.inl rfl⟩
  | cons d r ih =>
    by_cases hd : d = ' '
    · subst hd
      exact ⟨[c], ' ' :: r, rfl, by simp, by simpa using hc, Or.inr ⟨r, rfl⟩⟩
    · obtain ⟨w, tail, h, _, hw, ht⟩ := ih d hd
      refine ⟨c :: w, tail, by rw [h]; rfl, by simp, ?_, ht⟩
      intro x hx
      rcases List.mem_cons.1 hx with rfl | hx
      · exact hc
      · exact hw x hx

theorem dropWhile_space_head (s : Str) (c : Char) (r : Str)
    (h : s.dropWhile (· = ' ') = c :: r) : c ≠ ' ' := by
  have := List.head_dropWhile_not (· = ' ') s (by rw [h]; simp)
  simpa [h] using this

theorem dropWhile_space_suffix_length (s : Str) : (s.dropWhile (· = ' ')).length ≤ s.length :=
  (List.dropWhile_sublist _).length_le

theorem dropWhile_space_mem (s : Str) (c : Char) (h : c ∈ s.dropWhile (· = ' ')) : c ∈ s :=
  (List.dropWhile_sublist _).subset h

theorem tokens_loop_words :
    ∀ (fuel : Nat) (args : List Str) (rest : Str), rest.length < fuel →
      (∀ c ∈ rest, c ≠ '\\' ∧ c ≠ '\'' ∧ c ≠ '"') →
      (∀ w ∈ words rest, w.length ≤ 999) →
      args.length + (words rest).length ≤ 100 →
      tokens_loop fuel args rest = .ok (args ++ words rest) := by
  intro fuel
  induction fuel with
  | zero => intro args rest h; simp at h
  | succ fuel ih =>
    intro args rest hf hchars hlen hcount
    rw [tokens_loop]
    have hwd := words_dropWhile rest
    have hle := dropWhile_space_suffix_length rest
    have hmem := dropWhile_space_mem rest
    generalize hr : rest.dropWhile (· = ' ') = rest1 at hwd hle hmem
    cases rest1 with
    | nil => simp [← hwd, words_nil]
    | cons c r =>
      have hc := dropWhile_space_head rest c r hr
      obtain ⟨w, tail, hsplit, hne, hw, ht⟩ := split_run c r hc
      have hplain : ∀ x ∈ w, plain x := by
        intro x hx
        have hx' : x ∈ rest := hmem x (by rw [hsplit]; exact List.mem_append_left _ hx)
        exact ⟨hw x hx, hchars x hx'⟩
      have hwords : words rest = w :: words tail := by
        rw [← hwd, hsplit]
        rcases ht with rfl | ⟨t, rfl⟩
        · simp [words_run_nil w hw hne, words_nil]
        · exact words_run_space w t hw hne
      have hwlen : w.length ≤ 999 := hlen w (by rw [hwords]; exact List.mem_cons_self _ _)
      have hlen1 : (c :: r).length = w.length + tail.length := by rw [hsplit]; simp
      have htok : token_loop ((c :: r).length + 1) [] (c :: r) = .ok (w, tail) := by
        rw [hsplit]
        have := token_loop_plain w hplain ((w ++ tail).length + 1) [] tail
          (by simp; omega) (by simpa using hwlen) ht
        simpa using this
      have hargs : args.length < MAX_NUM_TOKENS := by
        rw [hwords] at hcount
        simp [MAX_NUM_TOKENS] at hcount ⊢
        omega
      have hwl : w.length < 1000 := by omega
      simp only [htok, hargs, if_true, hwl]
      have hwpos : 0 < w.length := List.length_pos.2 hne
      rw [ih (args ++ [w]) tail (by omega)
        (fun x hx => hchars x (hmem x (by rw [hsplit]; exact List.mem_append_right _ hx)))
        (fun x hx => hlen x (by rw [hwords]; exact List.mem_cons_of_mem _ hx))
        (by rw [hwords] at hcount; simp at hcount ⊢; omega)]
      simp [hwords]

/-- C1: on a line made only of spaces and of characters other than space, backslash, single
quote and double quote, with every maximal run of non-space characters at most 999 long and
fewer than 100 runs, `tokenize_input` returns exactly the maximal runs of non-space
characters, in order; leading, trailing and repeated spaces give no empty token. -/
theorem tokenize_input_words (s : Str)
    (hchars : ∀ c ∈ s, c ≠ '\\' ∧ c ≠ '\'' ∧ c ≠ '"')
    (hlen : ∀ w ∈ words s, w.length ≤ 999)
    (hcount : (words s).length < 100) :
    tokenize_input s = .ok (words s) ∧ [] ∉ words s := by
  constructor
  · have h := tokens_loop_words (s.length + 1) [] s (by omega) hchars hlen
      (by simp; omega)
    simp only [tokenize_input, h, List.nil_append]
    simp [MAX_NUM_TOKENS, hcount]
  · simp [words]

/-- Instance of C1 at `echo  a   b`, whose runs are `echo`, `a` and `b`. -/
theorem tokenize_input_words_witness :
    words "echo  a   b".toList = ["echo".toList, "a".toList, "b".toList] ∧
    (tokenize_input "echo  a   b".toList = .ok (words "echo  a   b".toList) ∧
      [] ∉ words "echo  a   b".toList) :=
  ⟨by decide, tokenize_input_words "echo  a   b".toList (by decide) (by decide) (by decide)⟩


/-! ### Tokenizer: quoted spans -/

theorem single_quote_span_literal (s : Str) (hs : '\'' ∉ s) :
    ∀ (buf tail : Str), buf.length + s.length ≤ 999 →
      single_quote_span buf (s ++ '\'' :: tail) = (buf ++ s, '\'' :: tail) := by
  induction s with
  | nil => intro buf tail _; simp [single_quote_span]
  | cons c s ih =>
    intro buf tail hlen
    simp only [List.mem_cons, not_or] at hs
    simp only [List.length_cons] at hlen
    have hc : c ≠ '\'' := fun h => hs.1 h.symm
    have hb : buf.length < 999 := by omega
    simp only [List.cons_append, single_quote_span, hc, if_false, hb, if_true]
    have h := ih hs.2 (buf ++ [c]) tail (by simp; omega)
    simpa using h

/-- C2: for a string `s` without single quote and of at most 999 characters,
`tokenize_input` applied to `s` wrapped in single quotes returns exactly one token, `s`
itself: spaces, backslashes and double quotes of the span are copied verbatim. -/
theorem tokenize_input_single_quoted (s : Str) (hs : '\'' ∉ s) (hlen : s.length ≤ 999) :
    tokenize_input ('\'' :: s ++ ['\'']) = .ok [s] := by
  have hspan := single_quote_span_literal s hs [] [] (by simpa using hlen)
  have hl : s.length < 1000 := by omega
  simp [tokenize_input, tokens_loop, token_loop, hspan, MAX_NUM_TOKENS, hl]

/-- Instance of C2 at `'a b'`, and at a span holding a backslash and a double quote. -/
theorem tokenize_input_single_quoted_witness :
    tokenize_input "'a b'".toList = .ok ["a b".toList] ∧
    tokenize_input "'a\\ \"b'".toList = .ok ["a\\ \"b".toList] :=
  ⟨tokenize_input_single_quoted "a b".toList (by decide) (by decide),
   tokenize_input_single_quoted "a\\ \"b".toList (by decide) (by decide)⟩

theorem double_quote_span_escape (s : Str) :
    ∀ (buf tail : Str), buf.length + s.length ≤ 999 →
      double_quote_span buf (escape_dq s ++ '"' :: tail) = (buf ++ s, '"' :: tail) := by
  induction s with
  | nil =>
    intro buf tail _
    cases tail <;> simp [escape_dq, double_quote_span]
  | cons c s ih =>
    intro buf tail hlen
    simp only [List.length_cons] at hlen
    have hb : buf.length < 999 := by omega
    have h := ih (buf ++ [c]) tail (by simp; omega)
    by_cases hc : c = '\\' ∨ c = '"'
    · simp only [escape_dq, hc, if_true, List.cons_append, double_quote_span, hb]
      simp only [List.append_assoc, List.singleton_append] at h
      rcases hc with rfl | rfl
      · simpa using h
      · simpa using h
    · simp only [escape_dq, hc, if_false, List.cons_append]
      obtain ⟨d, r, hd⟩ : ∃ d r, escape_dq s ++ '"' :: tail = d :: r := by
        cases hes : escape_dq s ++ '"' :: tail with
        | nil => simp at hes
        | cons d r => exact ⟨d, r, rfl⟩
      rw [hd] at h ⊢
      simp only [not_or] at hc
      simp only [double_quote_span, hc.1, hc.2, if_false, hb, if_true, false_and]
      simpa using h

/-- C3: for a string `s` of at most 999 characters, `tokenize_input` applied to
`escape_dq s` (a backslash put before every backslash and double quote of `s`) wrapped in
double quotes returns exactly one token, `s` itself. -/
theorem tokenize_input_double_quoted (s : Str) (hlen : s.length ≤ 999) :
    tokenize_input ('"' :: escape_dq s ++ ['"']) = .ok [s] := by
  have hspan := double_quote_span_escape s [] [] (by simpa using hlen)
  have hl : s.length < 1000 := by omega
  simp [tokenize_input, tokens_loop, token_loop, hspan, MAX_NUM_TOKENS, hl]

/-- Instance of C3 at `a"b`, written `"a\"b"` on the line. -/
theorem tokenize_input_double_quoted_witness :
    '"' :: escape_dq "a\"b".toList ++ ['"'] = "\"a\\\"b\"".toList ∧
    tokenize_input "\"a\\\"b\"".toList = .ok ["a\"b".toList] :=
  ⟨by decide, tokenize_input_double_quoted "a\"b".toList (by decide)⟩

/-- Two adjacent single-quoted spans give the one token `s ++ t` when the second span holds
no space, backslash or quote: after `''` the text of the second span is scanned outside
quotes, and its closing quote opens a span that runs to the end of the line. -/
theorem tokenize_input_adjacent_plain (s t : Str) (hs : '\'' ∉ s) (ht : ∀ c ∈ t, plain c)
    (hlen : s.length + t.length ≤ 999) :
    tokenize_input ('\'' :: s ++ '\'' :: '\'' :: t ++ ['\'']) = .ok [s ++ t] := by
  have hspan := single_quote_span_literal s hs [] ('\'' :: (t ++ ['\''])) (by simp; omega)
  have hstep := token_loop_plain_step t ht (s.length + 4) ([] ++ s) ['\''] (by simpa using hlen)
  simp only [List.nil_append] at hspan hstep
  have hnorm : '\'' :: s ++ '\'' :: '\'' :: t ++ ['\''] =
      '\'' :: (s ++ '\'' :: '\'' :: (t ++ ['\''])) := by simp
  have hfuel : ('\'' :: (s ++ '\'' :: '\'' :: (t ++ ['\'']))).length + 1 =
      (s.length + 4 + t.length) + 1 := by
    simp; omega
  have htok : token_loop (('\'' :: (s ++ '\'' :: '\'' :: (t ++ ['\'']))).length + 1) []
      ('\'' :: (s ++ '\'' :: '\'' :: (t ++ ['\'']))) = .ok (s ++ t, []) := by
    rw [hfuel]
    simp only [token_loop, hspan]
    simp only [hstep]
    simp [token_loop, single_quote_span]
  have hl : s.length + t.length < 1000 := by omega
  rw [hnorm, tokenize_input, tokens_loop]
  have hdrop : List.dropWhile (· = ' ') ('\'' :: (s ++ '\'' :: '\'' :: (t ++ ['\'']))) =
      '\'' :: (s ++ '\'' :: '\'' :: (t ++ ['\''])) := by
    simp [List.dropWhile_cons]
  rw [hdrop]
  simp only [htok]
  simp [tokens_loop, MAX_NUM_TOKENS, hl]

/-- C4 (code at failing inputs): after `''` the scan goes on outside quotes, so a space in
the second span ends the token and a backslash there is an escape. -/
theorem tokenize_input_adjacent_spans_unquoted :
    tokenize_input "'a''b c'".toList = .ok ["ab".toList, "c".toList] ∧
    tokenize_input "'a''b\\c'".toList = .ok ["abc".toList] := by
  decide


/-! ### Tokenizer: the iteration bounds are never reached -/

theorem single_quote_span_length (rest : Str) :
    ∀ buf : Str, (single_quote_span buf rest).2.length ≤ rest.length := by
  induction rest with
  | nil => intro buf; simp [single_quote_span]
  | cons c rest ih =>
    intro buf
    simp only [single_quote_span]
    split
    · simp
    · split
      · exact Nat.le_succ_of_le (ih _)
      · exact Nat.le_succ_of_le (ih _)

theorem double_quote_span_length :
    ∀ (n : Nat) (rest : Str), rest.length ≤ n →
      ∀ buf : Str, (double_quote_span buf rest).2.length ≤ rest.length := by
  intro n
  induction n with
  | zero =>
    intro rest h buf
    have : rest = [] := List.length_eq_zero.1 (Nat.le_zero.1 h)
    subst this
    simp [double_quote_span]
  | succ n ih =>
    intro rest h buf
    match rest with
    | [] => simp [double_quote_span]
    | [c] =>
      simp only [double_quote_span]
      split
      · simp
      · split <;> simp
    | c :: d :: rest =>
      simp only [List.length_cons] at h
      simp only [double_quote_span]
      split
      · simp
      · split
        · split
          · have := ih rest (by omega) (buf ++ [d])
            simp only [List.length_cons]
            omega
          · have := ih (d :: rest) (by simp; omega) (buf ++ [c])
            simp only [List.length_cons] at this ⊢
            omega
        · have := ih (d :: rest) (by simp; omega) buf
          simp only [List.length_cons] at this ⊢
          omega

theorem token_loop_fuel :
    ∀ (fuel : Nat) (buf rest : Str), rest.length < fuel →
      token_loop fuel buf rest ≠ .error .outOfFuel ∧
      ∀ b r, token_loop fuel buf rest = .ok (b, r) →
        r.length ≤ rest.length ∧ (∀ c t, rest = c :: t → c ≠ ' ' → r.length < rest.length) := by
  intro fuel
  induction fuel with
  | zero => intro buf rest h; simp at h
  | succ fuel ih =>
    intro buf rest hf
    match rest with
    | [] => simp [token_loop]
    | c :: rest =>
      simp only [List.length_cons] at hf
      have key : ∀ b0 r0 : Str, r0.length ≤ rest.length →
          token_loop fuel b0 r0 ≠ .error .outOfFuel ∧
          ∀ b r, token_loop fuel b0 r0 = .ok (b, r) →
            r.length ≤ (c :: rest).length ∧
              (∀ c' t, c :: rest = c' :: t → c' ≠ ' ' → r.length < (c :: rest).length) := by
        intro b0 r0 h0
        obtain ⟨h1, h2⟩ := ih b0 r0 (by omega)
        refine ⟨h1, fun b r h => ?_⟩
        have := (h2 b r h).1
        simp only [List.length_cons]
        exact ⟨by omega, fun _ _ _ _ => by omega⟩
      by_cases h1 : c = ' '
      · simp only [token_loop, h1, if_true]
        refine ⟨by simp, fun b r h => ?_⟩
        simp only [Except.ok.injEq, Prod.mk.injEq] at h
        rw [← h.2]
        exact ⟨le_refl _, fun c' t e hc => by simp at e; exact absurd e.1.symm hc⟩
      · by_cases h2 : c = '\\'
        · subst h2
          match rest with
          | [] => simpa [token_loop] using key buf [] (by simp)
          | d :: rest' =>
            by_cases hb : buf.length < 1000
            · simpa [token_loop, hb] using key (buf ++ [d]) rest' (by simp)
            · simp [token_loop, hb]
        · by_cases h3 : c = '\''
          · subst h3
            have hlen := single_quote_span_length rest buf
            rcases hq : single_quote_span buf rest with ⟨buf', _ | ⟨q, _ | ⟨q', rest'⟩⟩⟩
            · simpa [token_loop, hq] using key buf' [] (by simp)
            · rw [hq] at hlen
              by_cases hq1 : q = '\''
              · simp [token_loop, hq, hq1]
              · simpa [token_loop, hq, hq1] using key buf' [q] hlen
            · rw [hq] at hlen
              simp only [List.length_cons] at hlen
              by_cases hq1 : q = '\''
              · by_cases hq2 : q' = '\''
                · simpa [token_loop, hq, hq1, hq2] using key buf' rest' (by omega)
                · simp only [token_loop, h1, h2, hq, hq1, hq2, if_true, if_false]
                  refine ⟨by simp, fun b r h => ?_⟩
                  simp only [Except.ok.injEq, Prod.mk.injEq] at h
                  rw [← h.2]
                  simp only [List.length_cons]
                  exact ⟨by omega, fun _ _ _ _ => by omega⟩
              · simpa [token_loop, hq, hq1] using key buf' (q :: q' :: rest') (by simpa using hlen)
          · by_cases h4 : c = '"'
            · subst h4
              have hlen := double_quote_span_length rest.length rest (le_refl _) buf
              rcases hq : double_quote_span buf rest with ⟨buf', _ | ⟨q, rest'⟩⟩
              · simpa [token_loop, hq] using key buf' [] (by simp)
              · rw [hq] at hlen
                simp only [List.length_cons] at hlen
                by_cases hq1 : q = '"'
                · simpa [token_loop, hq, hq1] using key buf' rest' (by omega)
                · simpa [token_loop, hq, hq1] using key buf' (q :: rest') (by simpa using hlen)
            · simpa [token_loop, h1, h2, h3, h4] using
                key (if buf.length < 999 then buf ++ [c] else buf) rest (le_refl _)

theorem tokens_loop_fuel :
    ∀ (fuel : Nat) (args : List Str) (rest : Str), rest.length < fuel →
      tokens_loop fuel args rest ≠ .error .outOfFuel := by
  intro fuel
  induction fuel with
  | zero => intro args rest h; simp at h
  | succ fuel ih =>
    intro args rest hf
    rw [tokens_loop]
    have hle := dropWhile_space_suffix_length rest
    generalize hr : rest.dropWhile (· = ' ') = rest1 at hle
    cases rest1 with
    | nil => simp
    | cons c r =>
      have hc := dropWhile_space_head rest c r hr
      obtain ⟨h1, h2⟩ := token_loop_fuel ((c :: r).length + 1) [] (c :: r) (by omega)
      simp only
      split
      · cases ht : token_loop ((c :: r).length + 1) [] (c :: r) with
        | error e =>
          simp only
          intro he
          simp only [Except.error.injEq] at he
          exact h1 (by rw [ht, he])
        | ok v =>
          obtain ⟨b, r2⟩ := v
          have hlt := (h2 b r2 ht).2 c r rfl hc
          simp only
          split
          · exact ih _ _ (by omega)
          · simp
      · simp

/-- The tokenizer never stops for lack of fuel: the model is total on every line, and a
result other than a list of tokens is a fault of the C code. -/
theorem tokenize_input_fuel (rest : Str) : tokenize_input rest ≠ .error .outOfFuel := by
  have h := tokens_loop_fuel (rest.length + 1) [] rest (by omega)
  simp only [tokenize_input]
  cases ht : tokens_loop (rest.length + 1) [] rest with
  | error e =>
    simp only
    intro he
    simp only [Except.error.injEq] at he
    exact h (by rw [ht, he])
  | ok v =>
    simp only
    split <;> simp

theorem tokenize_input_spaces (n : Nat) : tokenize_input (List.replicate n ' ') = .ok [] := by
  have h : (List.replicate n ' ').dropWhile (· = ' ') = [] := by
    rw [List.dropWhile_eq_nil_iff]
    intro x hx
    simp [List.eq_of_mem_replicate hx]
  simp [tokenize_input, tokens_loop, h, MAX_NUM_TOKENS]


/-! ### Pipeline splitter -/

theorem strsep_none (rest : Str) (h : (strsep rest).2 = none) :
    (strsep rest).1 = rest ∧ '|' ∉ rest := by
  induction rest with
  | nil => simp [strsep]
  | cons c cs ih =>
    by_cases hc : c = '|'
    · simp [strsep, hc] at h
    · simp only [strsep, hc, if_false] at h ⊢
      obtain ⟨h1, h2⟩ := ih h
      refine ⟨by simp [h1], ?_⟩
      simp only [List.mem_cons, not_or]
      exact ⟨fun e => hc e.symm, h2⟩

theorem strsep_some (rest rest' : Str) (h : (strsep rest).2 = some rest') :
    rest = (strsep rest).1 ++ '|' :: rest' ∧ '|' ∉ (strsep rest).1 := by
  induction rest with
  | nil => simp [strsep] at h
  | cons c cs ih =>
    by_cases hc : c = '|'
    · simp only [strsep, hc, if_true, Option.some.injEq] at h ⊢
      simp [h]
    · simp only [strsep, hc, if_false] at h ⊢
      obtain ⟨h1, h2⟩ := ih h
      refine ⟨by simpa using h1, ?_⟩
      simp only [List.mem_cons, not_or]
      exact ⟨fun e => hc e.symm, h2⟩

theorem split_pipes_eq :
    ∀ (fuel : Nat) (rest : Str) (pipes : List Str), rest.length < fuel →
      pipes.length + (rest.splitOn '|').length ≤ 100 →
      split_pipes fuel rest pipes = .ok (pipes ++ (rest.splitOn '|').map trim_segment) := by
  intro fuel
  induction fuel with
  | zero => intro rest pipes h; simp at h
  | succ fuel ih =>
    intro rest pipes hf hcap
    have hne : 0 < (rest.splitOn '|').length :=
      List.length_pos.2 (List.splitOnP_ne_nil _ _)
    have hp : pipes.length < MAX_NUM_TOKENS := by simp only [MAX_NUM_TOKENS]; omega
    rw [split_pipes]
    simp only [hp, if_true]
    rcases hs : strsep rest with ⟨segment, _ | rest'⟩
    · obtain ⟨h1, h2⟩ := strsep_none rest (by rw [hs])
      rw [hs] at h1
      simp only at h1
      subst h1
      have : segment.splitOn '|' = [segment] := by
        apply List.splitOnP_eq_single
        intro x hx
        simp only [beq_iff_eq]
        rintro rfl
        exact h2 hx
      simp [this]
    · obtain ⟨h1, h2⟩ := strsep_some rest rest' (by rw [hs])
      rw [hs] at h1 h2
      simp only at h1 h2
      have hsplit : rest.splitOn '|' = segment :: rest'.splitOn '|' := by
        rw [h1]
        apply List.splitOnP_first
        · intro x hx
          simp only [beq_iff_eq]
          rintro rfl
          exact h2 hx
        · simp
      have hlen : rest'.length < fuel := by
        have : rest.length = segment.length + (rest'.length + 1) := by
          conv_lhs => rw [h1]
          simp
        omega
      simp only
      rw [ih rest' _ hlen (by rw [hsplit] at hcap; simp at hcap ⊢; omega), hsplit]
      simp

theorem count_pipe_cons (c : Char) (s : Str) :
    (c :: s).count '|' = s.count '|' + (if c = '|' then 1 else 0) := by
  by_cases h : c = '|'
  · subst h; simp
  · rw [List.count_cons_of_ne (fun e => h e.symm)]; simp [h]

theorem splitOn_pipe_length (s : Str) : (s.splitOn '|').length = s.count '|' + 1 := by
  induction s with
  | nil => rfl
  | cons c s ih =>
    have h : (c :: s).splitOn '|' =
        if c = '|' then [] :: s.splitOn '|' else (s.splitOn '|').modifyHead (List.cons c) := by
      simp [List.splitOn]
    rw [h, count_pipe_cons]
    by_cases hc : c = '|'
    · simp [hc, ih]
    · simp [hc, ih]

/-- The splitter yields the pieces of the line between the `|` characters, each trimmed by
`trim_segment`, in order, whenever they fit the 100 slots of `pipes`. -/
theorem pipe_segments_eq (input : Str) (h : input.count '|' < 100) :
    pipe_segments input = .ok ((input.splitOn '|').map trim_segment) := by
  have := split_pipes_eq (input.length + 1) input [] (by omega)
    (by rw [splitOn_pipe_length]; simp; omega)
  simpa [pipe_segments] using this

theorem split_pipes_fuel :
    ∀ (fuel : Nat) (rest : Str) (pipes : List Str), rest.length < fuel →
      split_pipes fuel rest pipes ≠ .error .outOfFuel := by
  intro fuel
  induction fuel with
  | zero => intro rest pipes h; simp at h
  | succ fuel ih =>
    intro rest pipes hf
    rw [split_pipes]
    split
    · rcases hs : strsep rest with ⟨segment, _ | rest'⟩
      · simp
      · obtain ⟨h1, _⟩ := strsep_some rest rest' (by rw [hs])
        rw [hs] at h1
        simp only at h1
        have hlen : rest.length = segment.length + (rest'.length + 1) := by
          conv_lhs => rw [h1]
          simp
        exact ih rest' _ (by omega)
    · simp

/-- The pipeline splitter never stops for lack of fuel. -/
theorem pipe_segments_fuel (input : Str) : pipe_segments input ≠ .error .outOfFuel :=
  split_pipes_fuel (input.length + 1) input [] (by omega)

theorem trim_end_head (fuel : Nat) : ∀ s : Str, (trim_end fuel s).head? = s.head? := by
  induction fuel with
  | zero => intro s; rfl
  | succ fuel ih =>
    intro s
    rw [trim_end]
    split
    · rename_i h
      rw [ih]
      match s with
      | [] => rfl
      | [c] => simp at h
      | c :: d :: s => simp [List.dropLast]
    · rfl

theorem trim_end_last (fuel : Nat) :
    ∀ s : Str, s.length ≤ fuel + 1 →
      (trim_end fuel s).length ≤ 1 ∨
        ((trim_end fuel s).getLast? ≠ some ' ' ∧ (trim_end fuel s).getLast? ≠ some '\n') := by
  induction fuel with
  | zero => intro s h; exact Or.inl h
  | succ fuel ih =>
    intro s h
    rw [trim_end]
    split
    · exact ih _ (by simp; omega)
    · rename_i hc
      by_cases hl : 0 < s.length - 1
      · right
        simp only [hl, true_and, not_or] at hc
        exact hc
      · left; omega

/-- What the trimming of lines 420-426 guarantees: the segment does not begin with a space,
does not end with a space, and ends with a newline only when it is the single character
newline (its first character, which the loop never removes). -/
theorem trim_segment_spec (segment : Str) :
    (trim_segment segment).head? ≠ some ' ' ∧
    (trim_segment segment).getLast? ≠ some ' ' ∧
    ((trim_segment segment).getLast? = some '\n' → trim_segment segment = ['\n']) := by
  have hhead : (trim_segment segment).head? ≠ some ' ' := by
    simp only [trim_segment, trim_end_head]
    intro h
    cases hd : segment.dropWhile (· = ' ') with
    | nil => simp [hd] at h
    | cons c r =>
      have := dropWhile_space_head segment c r hd
      simp [hd] at h
      exact this h
  have hlast := trim_end_last (segment.dropWhile (· = ' ')).length
    (segment.dropWhile (· = ' ')) (by omega)
  refine ⟨hhead, ?_, ?_⟩
  · rcases hlast with h | h
    · match ht : trim_segment segment with
      | [] => simp
      | [c] =>
        rw [ht] at hhead
        simpa using hhead
      | c :: d :: r =>
        simp only [trim_segment] at ht
        rw [ht] at h
        simp at h
    · exact h.1
  · intro hn
    rcases hlast with h | h
    · match ht : trim_segment segment with
      | [] => rw [ht] at hn; simp at hn
      | [c] =>
        rw [ht] at hn
        simp at hn
        rw [hn]
      | c :: d :: r =>
        simp only [trim_segment] at ht
        rw [ht] at h
        simp at h
    · exact absurd hn h.2

/-- C8 (code at failing inputs): the trimming loop never removes the first character of a
segment, so a segment that is a newline, alone or followed by spaces and newlines, is left
as a newline. -/
theorem pipe_segments_keeps_newline :
    pipe_segments "a|\n".toList = .ok ["a".toList, "\n".toList] ∧
    pipe_segments "\n \n".toList = .ok ["\n".toList] := by
  decide


/-! ### Redirection scan -/

theorem argv_of_prefix (pre : List Str) (rest : List (Option Str)) :
    argv_of (pre.map some ++ none :: rest) = pre := by
  induction pre with
  | nil => rfl
  | cons t pre ih => simp [argv_of, ih]

theorem args_get?_add (pre : List Str) (rest : List (Option Str)) (k : Nat) :
    (pre.map some ++ rest).get? (pre.length + k) = rest.get? k := by
  rw [List.get?_eq_getElem?, List.getElem?_append_right (by simp)]
  simp

theorem redirect_scan_from_found (pre2 : List Str) :
    ∀ (pre1 : List Str) (op : Str) (file : Option Str) (rest : List (Option Str))
      (fuel : Nat), pre2.length < fuel → (∀ t ∈ pre2, is_redirect t = false) →
      is_redirect op = true →
      redirect_scan_from ((pre1 ++ pre2).map some ++ some op :: file :: rest) fuel
          pre1.length =
        .ok ⟨(pre1 ++ pre2).map some ++ none :: file :: rest, redirect_type_of op, file⟩ := by
  induction pre2 with
  | nil =>
    intro pre1 op file rest fuel hf _ hop
    obtain ⟨f, rfl⟩ : ∃ f, fuel = f + 1 := ⟨fuel - 1, by simp at hf; omega⟩
    have h0 : ((pre1 ++ []).map some ++ some op :: file :: rest).get? pre1.length =
        some (some op) := by
      simpa using args_get?_add pre1 (some op :: file :: rest) 0
    have h1 : ((pre1 ++ []).map some ++ some op :: file :: rest).get? (pre1.length + 1) =
        some file := by
      simpa using args_get?_add pre1 (some op :: file :: rest) 1
    rw [redirect_scan_from, h0]
    simp only [hop, if_true, h1]
    congr 2
    simp [List.set_append]
  | cons t pre2 ih =>
    intro pre1 op file rest fuel hf hpre hop
    obtain ⟨f, rfl⟩ : ∃ f, fuel = f + 1 := ⟨fuel - 1, by simp at hf; omega⟩
    have h0 : ((pre1 ++ t :: pre2).map some ++ some op :: file :: rest).get? pre1.length =
        some (some t) := by
      simpa using args_get?_add pre1 (some t :: (pre2.map some ++ some op :: file :: rest)) 0
    have ht : is_redirect t = false := hpre t (List.mem_cons_self _ _)
    rw [redirect_scan_from, h0]
    simp only [ht]
    have h := ih (pre1 ++ [t]) op file rest f (by simp at hf; omega)
      (fun x hx => hpre x (List.mem_cons_of_mem _ hx)) hop
    simpa using h

theorem redirect_type_cases (op : Str) (hop : is_redirect op = true) :
    (redirect_type_of op,
      (if op = "2>".toList ∨ op = "2>>".toList then Stream.stderr else Stream.stdout),
      (if op = ">>".toList ∨ op = "1>>".toList ∨ op = "2>>".toList then Mode.append
        else Mode.truncate)) ∈
      [((1 : Int), Stream.stdout, Mode.truncate), (2, Stream.stderr, Mode.truncate),
        (3, Stream.stdout, Mode.append), (4, Stream.stderr, Mode.append)] := by
  simp only [is_redirect, Bool.or_eq_true, decide_eq_true_eq] at hop
  rcases hop with ((((rfl | rfl) | rfl) | rfl) | rfl) | rfl <;> decide

theorem child_setup_of_op (args : List (Option Str)) (op file : Str)
    (hop : is_redirect op = true) :
    child_setup ⟨args, redirect_type_of op, some file⟩ =
      .redirect (if op = "2>".toList ∨ op = "2>>".toList then .stderr else .stdout)
        (if op = ">>".toList ∨ op = "1>>".toList ∨ op = "2>>".toList then .append
          else .truncate) file := by
  have h := redirect_type_cases op hop
  generalize redirect_type_of op = rt at h
  generalize (if op = "2>".toList ∨ op = "2>>".toList then Stream.stderr
    else Stream.stdout) = st at h
  generalize (if op = ">>".toList ∨ op = "1>>".toList ∨ op = "2>>".toList then Mode.append
    else Mode.truncate) = md at h
  simp only [List.mem_cons, Prod.mk.injEq, List.mem_singleton, List.not_mem_nil,
    or_false] at h
  rcases h with ⟨rfl, rfl, rfl⟩ | ⟨rfl, rfl, rfl⟩ | ⟨rfl, rfl, rfl⟩ | ⟨rfl, rfl, rfl⟩ <;>
    simp [child_setup]

theorem redirect_scan_decomposed (pre : List Str) (op file : Str) (post : List Str)
    (hpre : ∀ t ∈ pre, is_redirect t = false) (hop : is_redirect op = true) :
    ∃ r, redirect_scan (args_array (pre ++ op :: file :: post)) = .ok r ∧
      r.output_file = some file ∧ argv_of r.args = pre ∧
      child_setup r =
        .redirect (if op = "2>".toList ∨ op = "2>>".toList then .stderr else .stdout)
          (if op = ">>".toList ∨ op = "1>>".toList ∨ op = "2>>".toList then .append
            else .truncate) file := by
  have h := redirect_scan_from_found pre [] op (some file) (post.map some ++ [none])
    ((args_array (pre ++ op :: file :: post)).length + 1)
    (by simp [args_array]; omega) hpre hop
  refine ⟨⟨pre.map some ++ none :: some file :: (post.map some ++ [none]),
    redirect_type_of op, some file⟩, ?_, rfl, ?_, ?_⟩
  · simpa [redirect_scan, args_array] using h
  · simpa using argv_of_prefix pre _
  · exact child_setup_of_op _ op file hop

theorem split_at_operator (tokens : List Str) (i : Nat) (op file : Str)
    (hop : tokens.get? i = some op) (hfile : tokens.get? (i + 1) = some file) :
    tokens = tokens.take i ++ op :: file :: tokens.drop (i + 2) := by
  rw [List.get?_eq_getElem?] at hop hfile
  obtain ⟨h1, e1⟩ := List.getElem?_eq_some_iff.1 hop
  obtain ⟨h2, e2⟩ := List.getElem?_eq_some_iff.1 hfile
  conv_lhs => rw [← List.take_append_drop i tokens]
  rw [List.drop_eq_getElem_cons h1, List.drop_eq_getElem_cons h2, e1, e2]

/-- C6: in a token vector whose leftmost token equal to `>`, `1>`, `2>`, `>>`, `1>>` or
`2>>` is `op`, at index `i`, followed by the token `file`, the redirection scan succeeds
and selects that operator: the target path is `file`, the vector left in `args` (the one
that is executed) is exactly the tokens before index `i`, and the child rebinds stderr
exactly when `op` is `2>` or `2>>` (stdout otherwise), in append mode exactly when `op` is
`>>`, `1>>` or `2>>` (truncate otherwise). -/
theorem redirect_scan_leftmost (tokens : List Str) (i : Nat) (op file : Str)
    (hop : tokens.get? i = some op) (hredir : is_redirect op = true)
    (hfirst : ∀ j t, j < i → tokens.get? j = some t → is_redirect t = false)
    (hfile : tokens.get? (i + 1) = some file) :
    ∃ r, redirect_scan (args_array tokens) = .ok r ∧
      r.output_file = some file ∧ argv_of r.args = tokens.take i ∧
      child_setup r =
        .redirect (if op = "2>".toList ∨ op = "2>>".toList then .stderr else .stdout)
          (if op = ">>".toList ∨ op = "1>>".toList ∨ op = "2>>".toList then .append
            else .truncate) file := by
  have hsplit := split_at_operator tokens i op file hop hfile
  have hpre : ∀ t ∈ tokens.take i, is_redirect t = false := by
    intro t ht
    obtain ⟨j, hj, rfl⟩ := List.getElem_of_mem ht
    have hj' : j < i := by
      have := List.length_take_le i tokens
      omega
    apply hfirst j _ hj'
    rw [List.get?_eq_getElem?, List.getElem_take]
    exact List.getElem?_eq_getElem _
  have h := redirect_scan_decomposed (tokens.take i) op file (tokens.drop (i + 2)) hpre hredir
  rw [← hsplit] at h
  exact h

/-- Instance of C6 at `ls -l 2>> err.log extra > other`. -/
theorem redirect_scan_leftmost_witness :
    ∃ r, redirect_scan (args_array ["ls".toList, "-l".toList, "2>>".toList,
        "err.log".toList, "extra".toList, ">".toList, "other".toList]) = .ok r ∧
      r.output_file = some "err.log".toList ∧
      argv_of r.args = ["ls".toList, "-l".toList] ∧
      child_setup r = .redirect .stderr .append "err.log".toList :=
  redirect_scan_leftmost ["ls".toList, "-l".toList, "2>>".toList, "err.log".toList,
    "extra".toList, ">".toList, "other".toList] 2 "2>>".toList "err.log".toList
    (by decide) (by decide)
    (by
      intro j t hj ht
      have hj2 : j = 0 ∨ j = 1 := by omega
      rcases hj2 with rfl | rfl
      · simp at ht
        subst ht
        decide
      · simp at ht
        subst ht
        decide)
    (by decide)

theorem redirect_scan_decomposed_last (pre : List Str) (op : Str)
    (hpre : ∀ t ∈ pre, is_redirect t = false) (hop : is_redirect op = true) :
    ∃ r, redirect_scan (args_array (pre ++ [op])) = .ok r ∧
      r.output_file = none ∧ argv_of r.args = pre ∧ child_setup r = .inherit := by
  have h := redirect_scan_from_found pre [] op none []
    ((args_array (pre ++ [op])).length + 1) (by simp [args_array]; omega) hpre hop
  refine ⟨⟨pre.map some ++ [none, none], redirect_type_of op, none⟩, ?_, rfl, ?_, rfl⟩
  · simpa [redirect_scan, args_array] using h
  · simpa using argv_of_prefix pre [none]

/-- C7, amended: when the leftmost redirection operator `op`, at index `i`, is the last
token, the scan succeeds without reading any slot beyond the terminating `NULL` of `args`:
that `NULL` is taken as the target, the vector left in `args` is exactly the tokens before
the operator, and the child opens no file (its streams are inherited); no error is
reported. -/
theorem redirect_scan_missing_target (tokens : List Str) (i : Nat) (op : Str)
    (hop : tokens.get? i = some op) (hredir : is_redirect op = true)
    (hfirst : ∀ j t, j < i → tokens.get? j = some t → is_redirect t = false)
    (hlast : i + 1 = tokens.length) :
    ∃ r, redirect_scan (args_array tokens) = .ok r ∧
      r.output_file = none ∧ argv_of r.args = tokens.take i ∧ child_setup r = .inherit := by
  have hsplit : tokens = tokens.take i ++ [op] := by
    rw [List.get?_eq_getElem?] at hop
    obtain ⟨h1, e1⟩ := List.getElem?_eq_some_iff.1 hop
    conv_lhs => rw [← List.take_append_drop i tokens]
    rw [List.drop_eq_getElem_cons h1, e1, List.drop_of_length_le (by omega)]
  have hpre : ∀ t ∈ tokens.take i, is_redirect t = false := by
    intro t ht
    obtain ⟨j, hj, rfl⟩ := List.getElem_of_mem ht
    have hj' : j < i := by
      have := List.length_take_le i tokens
      omega
    apply hfirst j _ hj'
    rw [List.get?_eq_getElem?, List.getElem_take]
    exact List.getElem?_eq_getElem _
  have h := redirect_scan_decomposed_last (tokens.take i) op hpre hredir
  rw [← hsplit] at h
  exact h

/-- Instance of the amended C7 at `echo hi >`. -/
theorem redirect_scan_missing_target_witness :
    ∃ r, redirect_scan (args_array ["echo".toList, "hi".toList, ">".toList]) = .ok r ∧
      r.output_file = none ∧ argv_of r.args = ["echo".toList, "hi".toList] ∧
      child_setup r = .inherit :=
  redirect_scan_missing_target ["echo".toList, "hi".toList, ">".toList] 2 ">".toList
    (by decide) (by decide)
    (by
      intro j t hj ht
      have hj2 : j = 0 ∨ j = 1 := by omega
      rcases hj2 with rfl | rfl
      · simp at ht
        subst ht
        decide
      · simp at ht
        subst ht
        decide)
    (by decide)

theorem redirect_scan_from_none (pre2 : List Str) :
    ∀ (pre1 : List Str) (fuel : Nat), pre2.length < fuel →
      (∀ t ∈ pre2, is_redirect t = false) →
      redirect_scan_from (args_array (pre1 ++ pre2)) fuel pre1.length =
        .ok ⟨args_array (pre1 ++ pre2), -1, none⟩ := by
  induction pre2 with
  | nil =>
    intro pre1 fuel hf _
    obtain ⟨f, rfl⟩ : ∃ f, fuel = f + 1 := ⟨fuel - 1, by simp at hf; omega⟩
    have h0 : (args_array (pre1 ++ [])).get? pre1.length = some none := by
      simp [args_array]
    rw [redirect_scan_from, h0]
  | cons t pre2 ih =>
    intro pre1 fuel hf hpre
    obtain ⟨f, rfl⟩ : ∃ f, fuel = f + 1 := ⟨fuel - 1, by simp at hf; omega⟩
    have h0 : (args_array (pre1 ++ t :: pre2)).get? pre1.length = some (some t) := by
      simpa [args_array] using args_get?_add pre1 (some t :: (pre2.map some ++ [none])) 0
    have ht : is_redirect t = false := hpre t (List.mem_cons_self _ _)
    rw [redirect_scan_from, h0]
    simp only [ht]
    have h := ih (pre1 ++ [t]) f (by simp at hf; omega)
      (fun x hx => hpre x (List.mem_cons_of_mem _ hx))
    simpa using h

/-- Without a redirection operator among the tokens the scan leaves `args` as it is and
sets no target. -/
theorem redirect_scan_none (tokens : List Str) (h : ∀ t ∈ tokens, is_redirect t = false) :
    redirect_scan (args_array tokens) = .ok ⟨args_array tokens, -1, none⟩ := by
  have := redirect_scan_from_none tokens [] ((args_array tokens).length + 1)
    (by simp [args_array]; omega) h
  simpa [redirect_scan] using this

theorem redirect_scan_from_fuel (args : List (Option Str)) :
    ∀ (fuel i : Nat), args.length - i < fuel →
      redirect_scan_from args fuel i ≠ .error .outOfFuel := by
  intro fuel
  induction fuel with
  | zero => intro i h; simp at h
  | succ fuel ih =>
    intro i hf
    rw [redirect_scan_from]
    cases hg : args.get? i with
    | none => simp
    | some a =>
      have hi : i < args.length := by
        rw [List.get?_eq_getElem?] at hg
        exact (List.getElem?_eq_some_iff.1 hg).1
      cases a with
      | none => simp
      | some t =>
        simp only
        split
        · split <;> simp
        · exact ih (i + 1) (by omega)

/-- The redirection scan never stops for lack of fuel. -/
theorem redirect_scan_fuel (args : List (Option Str)) :
    redirect_scan args ≠ .error .outOfFuel :=
  redirect_scan_from_fuel args (args.length + 1) 0 (by omega)


/-! ### Search path -/

theorem readdir_loop_some (token : Str) (entries : List Str) :
    readdir_loop (some token) entries = .ok (decide (token ∈ entries)) := by
  induction entries with
  | nil => simp [readdir_loop]
  | cons d_name entries ih =>
    by_cases h : token = d_name
    · simp [readdir_loop, strcmp_eq, h]
    · simp [readdir_loop, strcmp_eq, h, ih]

theorem find_in_path_some_ok (listing : Str → Option (List Str)) (token : Str)
    (paths : List Str) : ∃ dir, find_in_path listing (some token) paths = .ok dir := by
  induction paths with
  | nil => exact ⟨[], rfl⟩
  | cons d paths ih =>
    obtain ⟨dir, hdir⟩ := ih
    cases hl : listing d with
    | none => exact ⟨dir, by simpa [find_in_path, hl] using hdir⟩
    | some es =>
      by_cases hin : token ∈ es
      · exact ⟨d, by simp [find_in_path, hl, readdir_loop_some, hin]⟩
      · exact ⟨dir, by simpa [find_in_path, hl, readdir_loop_some, hin] using hdir⟩

/-- Function `find_in_path` returns the first directory, in list order, that can be opened and whose
listing holds an entry equal to the name; no entry is skipped. -/
theorem find_in_path_first (listing : Str → Option (List Str)) (token : Str)
    (pre : List Str) (dir : Str) (post : List Str) (entries : List Str)
    (hdir : listing dir = some entries) (hin : token ∈ entries)
    (hpre : ∀ d ∈ pre, ∀ es, listing d = some es → token ∉ es) :
    find_in_path listing (some token) (pre ++ dir :: post) = .ok dir := by
  induction pre with
  | nil => simp [find_in_path, hdir, readdir_loop_some, hin]
  | cons d pre ih =>
    have ih' := ih (fun x hx => hpre x (List.mem_cons_of_mem _ hx))
    cases hl : listing d with
    | none => simpa [find_in_path, hl] using ih'
    | some es =>
      have := hpre d (List.mem_cons_self _ _) es hl
      simpa [find_in_path, hl, readdir_loop_some, this] using ih'

/-- Function `find_in_path` returns the empty string when no directory that can be opened lists the
name. -/
theorem find_in_path_not_found (listing : Str → Option (List Str)) (token : Str)
    (paths : List Str) (hall : ∀ d ∈ paths, ∀ es, listing d = some es → token ∉ es) :
    find_in_path listing (some token) paths = .ok [] := by
  induction paths with
  | nil => rfl
  | cons d paths ih =>
    have ih' := ih (fun x hx => hall x (List.mem_cons_of_mem _ hx))
    cases hl : listing d with
    | none => simpa [find_in_path, hl] using ih'
    | some es =>
      have := hall d (List.mem_cons_self _ _) es hl
      simpa [find_in_path, hl, readdir_loop_some, this] using ih'

theorem find_in_path_null (listing : Str → Option (List Str)) (paths : List Str) :
    find_in_path listing none paths = .ok [] ∨
      find_in_path listing none paths = .error .nullDeref := by
  induction paths with
  | nil => exact Or.inl rfl
  | cons dir paths ih =>
    simp only [find_in_path]
    cases listing dir with
    | none => exact ih
    | some entries =>
      cases entries with
      | nil => simpa [readdir_loop] using ih
      | cons d_name entries => exact Or.inr (by simp [readdir_loop, strcmp_eq])

/-- C9 (code at failing inputs): `find_in_path` compares every entry, `.` and `..`
included, so these names resolve to the first directory that can be opened. -/
theorem find_in_path_resolves_dot :
    find_in_path env0.listing (some ".".toList) env0.paths = .ok "/bin".toList ∧
    find_in_path env0.listing (some "..".toList) env0.paths = .ok "/bin".toList ∧
    main_step env0 "type .".toList =
      .ok (.single .inherit (.ok (.type ". is /bin/.\n".toList))) := by
  decide


/-! ### The handlers of `echo` and `type` -/

theorem intercalate_space_cons (a : Str) (todo : List Str) :
    [' '].intercalate (a :: todo) =
      a ++ (if 0 < todo.length then [' '] else []) ++ [' '].intercalate todo := by
  cases todo with
  | nil => simp [List.intercalate]
  | cons b todo => simp [List.intercalate, List.intersperse]

theorem echo_loop_joined (cmd : Str) :
    ∀ (todo done : List Str) (out : Str) (fuel : Nat), todo.length < fuel →
      echo_loop (args_array (cmd :: (done ++ todo))) (done.length + todo.length + 1) fuel
          (done.length + 1) out =
        .ok (out ++ [' '].intercalate todo) := by
  intro todo
  induction todo with
  | nil =>
    intro done out fuel hf
    obtain ⟨f, rfl⟩ : ∃ f, fuel = f + 1 := ⟨fuel - 1, by simp at hf; omega⟩
    simp [echo_loop, List.intercalate]
  | cons a todo ih =>
    intro done out fuel hf
    obtain ⟨f, rfl⟩ : ∃ f, fuel = f + 1 := ⟨fuel - 1, by simp at hf; omega⟩
    have hget : (args_array (cmd :: (done ++ a :: todo))).get? (done.length + 1) =
        some (some a) := by
      have := args_get?_add (cmd :: done) (some a :: (todo.map some ++ [none])) 0
      simpa [args_array] using this
    have hlt : done.length + 1 < done.length + (a :: todo).length + 1 := by simp
    rw [echo_loop]
    simp only [hlt, if_true, hget]
    have h := ih (done ++ [a]) (out ++ a ++ (if 0 < todo.length then [' '] else [])) f
      (by simp at hf; omega)
    rw [intercalate_space_cons]
    have e1 : (done ++ [a]).length + todo.length + 1 = done.length + (a :: todo).length + 1 := by
      simp; omega
    have e2 : (done ++ [a]).length + 1 = done.length + 1 + 1 := by simp
    have e3 : (done.length + 1 + 1 < done.length + (a :: todo).length + 1) ↔
        0 < todo.length := by
      simp
    rw [e1, e2] at h
    simp only [List.append_assoc, List.singleton_append, e3] at h ⊢
    exact h

/-- When `echo_handler` is given the vector `echo a₁ … aₙ` with its own count `n + 1`, it
writes the arguments joined by single spaces, with nothing after the last one, and a
newline exactly when standard output is not a pipe. -/
theorem echo_handler_joined (cmd : Str) (as : List Str) (is_pipe : Bool) :
    echo_handler (args_array (cmd :: as)) (as.length + 1) is_pipe =
      .ok ([' '].intercalate as ++ (if is_pipe then [] else ['\n'])) := by
  have h := echo_loop_joined cmd as [] [] (as.length + 1 + 1) (by omega)
  simp only [List.nil_append, List.length_nil, Nat.zero_add] at h
  simp only [echo_handler, h]
  cases is_pipe <;> simp

theorem echo_loop_stale (cmd : Str) (rest : List (Option Str)) (k : Nat) :
    ∀ (todo done : List Str) (out : Str) (fuel : Nat), todo.length < fuel →
      echo_loop ((cmd :: (done ++ todo)).map some ++ none :: rest)
          (done.length + todo.length + 1 + (k + 1)) fuel (done.length + 1) out =
        .ok (out ++ (todo.map (· ++ [' '])).flatten) := by
  intro todo
  induction todo with
  | nil =>
    intro done out fuel hf
    obtain ⟨f, rfl⟩ : ∃ f, fuel = f + 1 := ⟨fuel - 1, by simp at hf; omega⟩
    have hget : ((cmd :: (done ++ [])).map some ++ none :: rest).get? (done.length + 1) =
        some none := by
      simpa using args_get?_add (cmd :: done) (none :: rest) 0
    have hlt : done.length + 1 < done.length + ([] : List Str).length + 1 + (k + 1) := by
      simp
    rw [echo_loop]
    simp only [hlt, if_true, hget]
    simp
  | cons a todo ih =>
    intro done out fuel hf
    obtain ⟨f, rfl⟩ : ∃ f, fuel = f + 1 := ⟨fuel - 1, by simp at hf; omega⟩
    have hget : ((cmd :: (done ++ a :: todo)).map some ++ none :: rest).get?
        (done.length + 1) = some (some a) := by
      simpa using args_get?_add (cmd :: done) (some a :: (todo.map some ++ none :: rest)) 0
    have hlt : done.length + 1 < done.length + (a :: todo).length + 1 + (k + 1) := by
      simp; omega
    have hlt2 : done.length + 1 + 1 < done.length + (a :: todo).length + 1 + (k + 1) := by
      simp; omega
    rw [echo_loop]
    simp only [hlt, hlt2, if_true, hget]
    have h := ih (done ++ [a]) (out ++ a ++ [' ']) f (by simp at hf; omega)
    have e1 : (done ++ [a]).length + todo.length + 1 + (k + 1) =
        done.length + (a :: todo).length + 1 + (k + 1) := by
      simp; omega
    have e2 : (done ++ [a]).length + 1 = done.length + 1 + 1 := by simp
    rw [e1, e2] at h
    simp only [List.append_assoc, List.singleton_append, List.map_cons, List.flatten_cons]
      at h ⊢
    exact h

/-- When `echo_handler` is given a vector cut by a `NULL` before its count `argc` is
reached (as after the redirection scan, or in a pipeline child), every argument, the last
one included, is followed by a space. -/
theorem echo_handler_stale_argc (cmd : Str) (as : List Str) (rest : List (Option Str))
    (k : Nat) (is_pipe : Bool) :
    echo_handler ((cmd :: as).map some ++ none :: rest) (as.length + 1 + (k + 1)) is_pipe =
      .ok ((as.map (· ++ [' '])).flatten ++ (if is_pipe then [] else ['\n'])) := by
  have h := echo_loop_stale cmd rest k as [] []
    (as.length + 1 + (k + 1) + 1) (by omega)
  simp only [List.nil_append, List.length_nil, Nat.zero_add] at h
  simp only [echo_handler, h]
  cases is_pipe <;> simp

theorem echo_loop_fuel (args : List (Option Str)) (argc : Nat) :
    ∀ (fuel i : Nat) (out : Str), argc - i < fuel →
      echo_loop args argc fuel i out ≠ .error .outOfFuel := by
  intro fuel
  induction fuel with
  | zero => intro i out h; simp at h
  | succ fuel ih =>
    intro i out hf
    rw [echo_loop]
    split
    · cases hg : args.get? i with
      | none => simp
      | some a =>
        cases a with
        | none => simp
        | some t => exact ih (i + 1) _ (by omega)
    · simp

/-- The loop of `echo_handler` never stops for lack of fuel. -/
theorem echo_handler_fuel (args : List (Option Str)) (argc : Nat) (is_pipe : Bool) :
    echo_handler args argc is_pipe ≠ .error .outOfFuel := by
  have h := echo_loop_fuel args argc (argc + 1) 1 [] (by omega)
  simp only [echo_handler]
  cases he : echo_loop args argc (argc + 1) 1 [] with
  | error e =>
    simp only
    intro h'
    simp only [Except.error.injEq] at h'
    exact h (by rw [he, h'])
  | ok v => simp

theorem type_loop_fuel (listing : Str → Option (List Str)) (paths : List Str)
    (args : List (Option Str)) (argc : Nat) :
    ∀ (fuel i : Nat) (out : Str), argc - i < fuel →
      type_loop listing paths args argc fuel i out ≠ .error .outOfFuel := by
  intro fuel
  induction fuel with
  | zero => intro i out h; simp at h
  | succ fuel ih =>
    intro i out hf
    rw [type_loop]
    split
    · cases hg : args.get? i with
      | none => simp
      | some next_token =>
        cases next_token with
        | none => simp [check_builtin]
        | some t =>
          simp only [check_builtin]
          split
          · rename_i heq
            simp at heq
          · exact ih (i + 1) _ (by omega)
          · rename_i heq1 heq2
            have hf := find_in_path_some_ok listing t paths
            obtain ⟨d, hd⟩ := hf
            simp only [hd]
            split
            · exact ih (i + 1) _ (by omega)
            · exact ih (i + 1) _ (by omega)
    · simp

/-- The loop of `type_handler` never stops for lack of fuel. -/
theorem type_handler_fuel (listing : Str → Option (List Str)) (paths : List Str)
    (args : List (Option Str)) (argc : Nat) :
    type_handler listing paths args argc ≠ .error .outOfFuel :=
  type_loop_fuel listing paths args argc (argc + 1) 1 [] (by omega)


/-! ### One line of input -/

theorem bind_ne_fuel {α β : Type} (x : Except Fault α) (f : α → Except Fault β)
    (hx : x ≠ .error .outOfFuel) (hf : ∀ a, x = .ok a → f a ≠ .error .outOfFuel) :
    (x >>= f) ≠ .error .outOfFuel := by
  cases x with
  | error e =>
    intro h
    apply hx
    simpa [bind, Except.bind] using h
  | ok a => exact hf a rfl

theorem strcmp_eq_ne_fuel (a : Option Str) (b : Str) : strcmp_eq a b ≠ .error .outOfFuel := by
  cases a <;> simp [strcmp_eq]

theorem slot_ne_fuel (args : List (Option Str)) (i : Nat) :
    slot args i ≠ .error .outOfFuel := by
  simp only [slot]
  split <;> simp

theorem find_in_path_ne_fuel (listing : Str → Option (List Str)) (token : Option Str)
    (paths : List Str) : find_in_path listing token paths ≠ .error .outOfFuel := by
  cases token with
  | none => rcases find_in_path_null listing paths with h | h <;> simp [h]
  | some t =>
    obtain ⟨d, hd⟩ := find_in_path_some_ok listing t paths
    simp [hd]

theorem pipe_segments_ne_fuel (line : Str) :
    pipe_segments (line.take (MAX_NUM_TOKENS - 1)) ≠ .error .outOfFuel := by
  have hc : (line.take (MAX_NUM_TOKENS - 1)).count '|' < 100 := by
    have h1 := List.count_le_length '|' (line.take (MAX_NUM_TOKENS - 1))
    have h2 : (line.take (MAX_NUM_TOKENS - 1)).length ≤ 99 := by
      simp [MAX_NUM_TOKENS]
    omega
  simp [pipe_segments_eq _ hc]

/-- The parent's part of one line never stops for lack of fuel: `main_step` is total, and an
error result is a fault of the C code. -/
theorem main_step_fuel (env : Env) (line : Str) : main_step env line ≠ .error .outOfFuel := by
  unfold main_step
  apply bind_ne_fuel _ _ (tokenize_input_fuel _)
  intro tokens _
  apply bind_ne_fuel _ _ (slot_ne_fuel _ _)
  intro a0 _
  apply bind_ne_fuel _ _ (find_in_path_ne_fuel _ _ _)
  intro search_path _
  apply bind_ne_fuel _ _ (pipe_segments_ne_fuel _)
  intro pipes _
  apply bind_ne_fuel _ _ (slot_ne_fuel _ _)
  intro a0' _
  apply bind_ne_fuel _ _ (strcmp_eq_ne_fuel _ _)
  intro b _
  split
  · simp [pure, Except.pure]
  apply bind_ne_fuel _ _ (redirect_scan_fuel _)
  intro r _
  apply bind_ne_fuel _ _ (slot_ne_fuel _ _)
  intro c0 _
  apply bind_ne_fuel _ _ (strcmp_eq_ne_fuel _ _)
  intro b2 _
  split
  · apply bind_ne_fuel _ _ (slot_ne_fuel _ _)
    intro c1 _
    apply bind_ne_fuel _ _ (strcmp_eq_ne_fuel _ _)
    intro b3 _
    split
    · simp [pure, Except.pure]
    · apply bind_ne_fuel _ _ (slot_ne_fuel _ _)
      intro c2 _
      simp [pure, Except.pure]
  · apply bind_ne_fuel _ _ (slot_ne_fuel _ _)
    intro c3 _
    apply bind_ne_fuel _ _ (strcmp_eq_ne_fuel _ _)
    intro b4 _
    split
    · simp [pure, Except.pure]
    · split
      · simp [pure, Except.pure]
      · simp only []
        split <;> simp [pure, Except.pure]

theorem exec_or_not_found_ne_fuel (args : List (Option Str)) (search_path : Str) :
    exec_or_not_found args search_path ≠ .error .outOfFuel := by
  unfold exec_or_not_found
  apply bind_ne_fuel _ _ (slot_ne_fuel _ _)
  intro arg0 _
  split <;> split <;> simp

/-- The single child never stops for lack of fuel. -/
theorem single_child_fuel (env : Env) (args : List (Option Str)) (argc : Nat)
    (search_path : Str) (is_pipe : Bool) :
    single_child env args argc search_path is_pipe ≠ .error .outOfFuel := by
  unfold single_child
  apply bind_ne_fuel _ _ (slot_ne_fuel _ _)
  intro arg0 _
  apply bind_ne_fuel _ _ (strcmp_eq_ne_fuel _ _)
  intro b1 _
  split
  · apply bind_ne_fuel _ _ (echo_handler_fuel _ _ _)
    intro out _
    simp [pure, Except.pure]
  apply bind_ne_fuel _ _ (strcmp_eq_ne_fuel _ _)
  intro b2 _
  split
  · apply bind_ne_fuel _ _ (type_handler_fuel _ _ _ _)
    intro out _
    simp [pure, Except.pure]
  apply bind_ne_fuel _ _ (strcmp_eq_ne_fuel _ _)
  intro b3 _
  split
  · simp [pure, Except.pure]
  apply bind_ne_fuel _ _ (strcmp_eq_ne_fuel _ _)
  intro b4 _
  split
  · simp [pure, Except.pure]
  · exact exec_or_not_found_ne_fuel _ _

/-- The child of a pipeline segment never stops for lack of fuel. -/
theorem segment_child_fuel (env : Env) (segment : Str) (argc : Nat) (is_pipe : Bool) :
    segment_child env segment argc is_pipe ≠ .error .outOfFuel := by
  unfold segment_child
  apply bind_ne_fuel _ _ (tokenize_input_fuel _)
  intro tokens _
  apply bind_ne_fuel _ _ (slot_ne_fuel _ _)
  intro arg0 _
  apply bind_ne_fuel _ _ (strcmp_eq_ne_fuel _ _)
  intro b1 _
  split
  · apply bind_ne_fuel _ _ (echo_handler_fuel _ _ _)
    intro out _
    simp [pure, Except.pure]
  apply bind_ne_fuel _ _ (strcmp_eq_ne_fuel _ _)
  intro b2 _
  split
  · simp [pure, Except.pure]
  apply bind_ne_fuel _ _ (strcmp_eq_ne_fuel _ _)
  intro b3 _
  split
  · apply bind_ne_fuel _ _ (type_handler_fuel _ _ _ _)
    intro out _
    simp [pure, Except.pure]
  · apply bind_ne_fuel _ _ (find_in_path_ne_fuel _ _ _)
    intro spath _
    exact exec_or_not_found_ne_fuel _ _

/-- A line whose tokens are `echo a₁ … aₙ`, with no redirection operator among them and no
`|` in the line, makes one child with inherited streams that writes the arguments joined by
single spaces, nothing after the last one, and a newline exactly when the standard output
of the shell is not a pipe. -/
theorem main_step_echo_plain (env : Env) (line : Str) (as : List Str)
    (htok : tokenize_input (line.take (MAX_NUM_TOKENS - 1)) = .ok ("echo".toList :: as))
    (hred : ∀ t ∈ as, is_redirect t = false)
    (hpipe : '|' ∉ line.take (MAX_NUM_TOKENS - 1)) :
    main_step env line =
      .ok (.single .inherit (.ok (.echo
        ([' '].intercalate as ++ (if env.stdout_fifo then [] else ['\n']))))) := by
  have hscan := redirect_scan_none ("echo".toList :: as) (by
    intro t ht
    rcases List.mem_cons.1 ht with rfl | ht
    · decide
    · exact hred t ht)
  obtain ⟨dir, hdir⟩ := find_in_path_some_ok env.listing "echo".toList env.paths
  have hsplit : (line.take (MAX_NUM_TOKENS - 1)).splitOn '|' =
      [line.take (MAX_NUM_TOKENS - 1)] := by
    apply List.splitOnP_eq_single
    intro x hx
    simp only [beq_iff_eq]
    rintro rfl
    exact hpipe hx
  have hp := pipe_segments_eq (line.take (MAX_NUM_TOKENS - 1))
    (by rw [List.count_eq_zero_of_not_mem hpipe]; omega)
  rw [hsplit] at hp
  have hecho := echo_handler_joined "echo".toList as env.stdout_fifo
  have hs0 : slot (args_array ("echo".toList :: as)) 0 = .ok (some "echo".toList) := rfl
  have hc1 : strcmp_eq (some "echo".toList) "exit".toList = .ok false := by decide
  have hc2 : strcmp_eq (some "echo".toList) "cd".toList = .ok false := by decide
  have hc3 : strcmp_eq (some "echo".toList) "history".toList = .ok false := by decide
  have hc4 : strcmp_eq (some "echo".toList) "echo".toList = .ok true := by decide
  have hsetup : child_setup ⟨args_array ("echo".toList :: as), -1, none⟩ = .inherit := rfl
  simp only [main_step, htok, hs0, hdir, hp, hc1, hscan, hc2, hc3, hsetup, single_child,
    hc4, List.length_cons, hecho, stdout_is_pipe, bind, Except.bind, pure, Except.pure,
    List.map_cons, List.map_nil, List.length_singleton]
  simp

theorem strcmp_eq_ne (a b : Str) (h : a ≠ b) : strcmp_eq (some a) b = .ok false := by
  simp [strcmp_eq, h]

theorem redirect_scan_decomposed_eq (pre : List Str) (op file : Str) (post : List Str)
    (hpre : ∀ t ∈ pre, is_redirect t = false) (hop : is_redirect op = true) :
    redirect_scan (args_array (pre ++ op :: file :: post)) =
      .ok ⟨pre.map some ++ none :: some file :: (post.map some ++ [none]),
        redirect_type_of op, some file⟩ := by
  have h := redirect_scan_from_found pre [] op (some file) (post.map some ++ [none])
    ((args_array (pre ++ op :: file :: post)).length + 1)
    (by simp [args_array]; omega) hpre hop
  simpa [redirect_scan, args_array] using h

/-- A line without `|` whose tokens are an external command found in `dir`, its arguments,
the first redirection operator, a file name and possibly more: one child is made, it
rebinds the stream of the operator to the file in the mode of the operator and executes
exactly the tokens before the operator. -/
theorem main_step_redirect_exec (env : Env) (line : Str) (cmd : Str) (pre : List Str)
    (op file : Str) (post : List Str) (dir : Str)
    (htok : tokenize_input (line.take (MAX_NUM_TOKENS - 1)) =
      .ok (cmd :: pre ++ op :: file :: post))
    (hpipe : '|' ∉ line.take (MAX_NUM_TOKENS - 1))
    (hpre : ∀ t ∈ cmd :: pre, is_redirect t = false) (hop : is_redirect op = true)
    (hcmd : cmd ∉ ["exit".toList, "cd".toList, "history".toList, "echo".toList,
      "type".toList, "pwd".toList])
    (hfind : find_in_path env.listing (some cmd) env.paths = .ok dir) (hdir : dir ≠ []) :
    main_step env line =
      .ok (.single
        (.redirect (if op = "2>".toList ∨ op = "2>>".toList then .stderr else .stdout)
          (if op = ">>".toList ∨ op = "1>>".toList ∨ op = "2>>".toList then .append
            else .truncate) file)
        (.ok (.exec (dir ++ ['/'] ++ cmd) (cmd :: pre)))) := by
  have hscan := redirect_scan_decomposed_eq (cmd :: pre) op file post hpre hop
  have hsetup := child_setup_of_op
    ((cmd :: pre).map some ++ none :: some file :: (post.map some ++ [none])) op file hop
  have hsplit : (line.take (MAX_NUM_TOKENS - 1)).splitOn '|' =
      [line.take (MAX_NUM_TOKENS - 1)] := by
    apply List.splitOnP_eq_single
    intro x hx
    simp only [beq_iff_eq]
    rintro rfl
    exact hpipe hx
  have hp := pipe_segments_eq (line.take (MAX_NUM_TOKENS - 1))
    (by rw [List.count_eq_zero_of_not_mem hpipe]; omega)
  rw [hsplit] at hp
  simp only [List.mem_cons, List.mem_singleton, List.not_mem_nil, or_false, not_or] at hcmd
  obtain ⟨h1, h2, h3, h4, h5, h6⟩ := hcmd
  have hargv : argv_of ((cmd :: pre).map some ++ none :: some file ::
      (post.map some ++ [none])) = cmd :: pre := argv_of_prefix (cmd :: pre) _
  have hs0 : slot (args_array (cmd :: pre ++ op :: file :: post)) 0 = .ok (some cmd) := rfl
  have hs1 : slot ((cmd :: pre).map some ++ none :: some file :: (post.map some ++ [none])) 0 =
      .ok (some cmd) := rfl
  have hc1 : strcmp_eq (some cmd) "exit".toList = .ok false := strcmp_eq_ne _ _ h1
  have hc2 : strcmp_eq (some cmd) "cd".toList = .ok false := strcmp_eq_ne _ _ h2
  have hc3 : strcmp_eq (some cmd) "history".toList = .ok false := strcmp_eq_ne _ _ h3
  have hc4 : strcmp_eq (some cmd) "echo".toList = .ok false := strcmp_eq_ne _ _ h4
  have hc5 : strcmp_eq (some cmd) "type".toList = .ok false := strcmp_eq_ne _ _ h5
  have hc6 : strcmp_eq (some cmd) "pwd".toList = .ok false := strcmp_eq_ne _ _ h6
  simp only [main_step, htok, hs0, hfind, hp, hc1, hscan, hs1, hc2, hc3, hsetup, single_child,
    exec_or_not_found, hc4, hc5, hc6, hdir, hargv, bind, Except.bind, pure, Except.pure,
    List.length_map, List.length_singleton]
  simp [hdir]

/-- Lines with a redirection and an external command: the child rebinds the stream named by
the leftmost operator and executes the tokens before it. -/
theorem main_step_redirect_examples :
    main_step env0 "ls -l 2>> err.log extra".toList =
      .ok (.single (.redirect .stderr .append "err.log".toList)
        (.ok (.exec "/bin/ls".toList ["ls".toList, "-l".toList]))) ∧
    main_step env0 "ls > out 2> err".toList =
      .ok (.single (.redirect .stdout .truncate "out".toList)
        (.ok (.exec "/bin/ls".toList ["ls".toList]))) ∧
    main_step env0 "cat a 1>> b".toList =
      .ok (.single (.redirect .stdout .append "b".toList)
        (.ok (.exec "/bin/cat".toList ["cat".toList, "a".toList]))) := by
  decide

/-- C5 (code at failing inputs): `echo_handler` is given the token count of the whole line,
so with a redirection (or in a pipeline) a space follows the last argument. -/
theorem echo_redirected_trailing_space :
    main_step env0 "echo hi > f".toList =
      .ok (.single (.redirect .stdout .truncate "f".toList) (.ok (.echo "hi \n".toList))) ∧
    main_step env0 "echo hi >> f".toList =
      .ok (.single (.redirect .stdout .append "f".toList) (.ok (.echo "hi \n".toList))) ∧
    main_step env0 "echo hi | cat".toList =
      .ok (.pipeline [.ok (.echo "hi ".toList),
        .ok (.exec "/bin/cat".toList ["cat".toList])]) := by
  decide

/-- C7, as stated, fails: on `echo hi >` and on `ls >` (operator last, no file name) the
scan returns normally with no target, no error is reported, and the command before the
operator runs with its streams inherited; `ls >` does exactly what `ls` does. -/
theorem redirect_missing_target_runs_command :
    redirect_scan (args_array ["echo".toList, "hi".toList, ">".toList]) =
      .ok ⟨[some "echo".toList, some "hi".toList, none, none], 1, none⟩ ∧
    main_step env0 "echo hi >".toList =
      .ok (.single .inherit (.ok (.echo "hi \n".toList))) ∧
    main_step env0 "ls >".toList =
      .ok (.single .inherit (.ok (.exec "/bin/ls".toList ["ls".toList]))) ∧
    main_step env0 "ls >".toList = main_step env0 "ls".toList := by
  decide

/-- C10 (code at failing inputs): on the empty line and on a line of spaces only there is
no token, `args[0]` is `NULL`, and `main` hands it to `strcmp` (inside `find_in_path` or in
the comparison with `exit`), whatever the search path holds; on `> f` the scan overwrites
`args[0]` with `NULL` before the comparison with `cd`. -/
theorem main_step_no_command_null_deref :
    (∀ (env : Env) (n : Nat), main_step env (List.replicate n ' ') = .error .nullDeref) ∧
    main_step env0 "> f".toList = .error .nullDeref := by
  constructor
  · intro env n
    have htok : tokenize_input ((List.replicate n ' ').take (MAX_NUM_TOKENS - 1)) = .ok [] := by
      rw [List.take_replicate]
      exact tokenize_input_spaces _
    simp only [main_step, htok]
    rcases find_in_path_null env.listing env.paths with h | h
    · have hp := pipe_segments_eq (List.replicate ((MAX_NUM_TOKENS - 1) ⊓ n) ' ')
        (by rw [List.count_replicate]; simp)
      simp [args_array, slot, h, bind, Except.bind, strcmp_eq, hp]
    · simp [args_array, slot, h, bind, Except.bind]
  · decide

end Shell
